import Mathlib

/-!
Shallow embedding of `generate_word_report.py` (repository jpg_insert_word).

Conventions of the embedding:
* Python floats are modelled as exact rationals (`ℚ`); `float("inf")` is the
  top element of `WithTop ℚ`.
* Python `round` (banker's rounding, half to even) is `roundHE`.
* Character classes (`[0-9]`, whitespace, case folding) are modelled over the
  ASCII range, which is the range exercised by the program's inputs.
* The filesystem is a value: a directory is `Option (List SrcFile)` (`none` =
  missing directory), a file is its name plus the outcome of decoding it with
  PIL (`dims = none` models `Image.open`/decode raising).
* Side effects (table mutation, progress callbacks, saving) are modelled as an
  explicit event trace.
-/

set_option maxRecDepth 8000

namespace JpgInsertWord

/-! ### Python `round` on rationals (half to even) -/

/-- Python `round`: nearest integer, ties to the even integer. -/
def roundHE (q : ℚ) : ℤ :=
  let f := ⌊q⌋
  let r := q - (f : ℚ)
  if r < 1/2 then f
  else if 1/2 < r then f + 1
  else if f % 2 = 0 then f else f + 1

/-! ### `pathlib` stem/suffix -/

/-- Index of the last '.' in the character list (Python `str.rfind`),
`none` when absent. -/
def rfindDot (l : List Char) : Option Nat :=
  ((l.enum.filter (fun p => p.2 = '.')).reverse.head?).map (fun p => p.1)

/-- Model of `pathlib.PurePath.suffix`: the substring from the last dot, provided that
dot is neither the first character nor the last one; otherwise `""`. -/
def pathSuffix (name : String) : String :=
  match rfindDot name.data with
  | some i => if 0 < i ∧ i < name.data.length - 1 then ⟨name.data.drop i⟩ else ""
  | none => ""

/-- Model of `pathlib.PurePath.stem`: the name with `pathSuffix` removed. -/
def pathStem (name : String) : String :=
  match rfindDot name.data with
  | some i => if 0 < i ∧ i < name.data.length - 1 then ⟨name.data.take i⟩ else name
  | none => name

/-- ASCII lower-casing, modelling `str.lower` on extension strings. -/
def strLower (s : String) : String := ⟨s.data.map Char.toLower⟩

/-- Python `str.strip()`: drop whitespace from both ends. -/
def pyStrip (s : String) : String :=
  ⟨(((s.data.dropWhile Char.isWhitespace).reverse.dropWhile Char.isWhitespace).reverse)⟩

/-! ### Python `int()` (sign + decimal digits, single underscores between
digits; the input has already been stripped) -/

/-- Value of a digit character. -/
def digitVal (c : Char) : Nat := c.toNat - 48

/-- Accumulate a run of digits possibly containing single underscores placed
between two digits, as Python's `int` grammar allows; `none` on any other
character or a misplaced underscore. -/
def pyDigitsVal (acc : Nat) : List Char → Option Nat
  | [] => some acc
  | c :: rest =>
    if c.isDigit then pyDigitsVal (acc * 10 + digitVal c) rest
    else if c = '_' then
      match rest with
      | d :: tl => if d.isDigit then pyDigitsVal (acc * 10 + digitVal d) tl else none
      | [] => none
    else none

/-- Python `int(s)` on an already-stripped string: optional sign followed by
digits; `none` models `ValueError`. -/
def parseIntPy (s : String) : Option ℤ :=
  let core : List Char → Option ℤ := fun l =>
    match l with
    | c :: _ => if c.isDigit then (pyDigitsVal 0 l).map Int.ofNat else none
    | [] => none
  match s.data with
  | '+' :: rest => core rest
  | '-' :: rest => (core rest).map (fun z => -z)
  | l => core l

/-! ### `parse_mileage` -/

/-- Numeric value of a digit run. -/
def digitsToNat (l : List Char) : Nat :=
  l.foldl (fun a c => a * 10 + digitVal c) 0

/-- Value of the regex match `[0-9]+(?:\.[0-9]+)?` starting at the head of
`l` (the head is known to be a digit): maximal digit run, then optionally a
dot followed by at least one digit. -/
def numHere (l : List Char) : ℚ :=
  let ds := l.takeWhile Char.isDigit
  let rest := l.dropWhile Char.isDigit
  match rest with
  | '.' :: d :: _ =>
    if d.isDigit then
      let fs := (rest.drop 1).takeWhile Char.isDigit
      (digitsToNat ds : ℚ) + (digitsToNat fs : ℚ) / (10 : ℚ) ^ fs.length
    else (digitsToNat ds : ℚ)
  | _ => (digitsToNat ds : ℚ)

/-- First match of `re.findall(r"[0-9]+(?:\.[0-9]+)?", ·)`, as a rational. -/
def scanNum : List Char → Option ℚ
  | [] => none
  | c :: rest => if c.isDigit then some (numHere (c :: rest)) else scanNum rest

/-- Function `parse_mileage`: value of the first digit run of `text`, `float("inf")`
(here `⊤`) when there is none.  (The `except ValueError` branch of the source
is dead: `float` always succeeds on a string matched by the regex.) -/
def parse_mileage (text : String) : WithTop ℚ :=
  match scanNum text.data with
  | some q => (q : WithTop ℚ)
  | none => ⊤

/-! ### `find_images` -/

/-- Constant `IMAGE_EXTS` from the source. -/
def IMAGE_EXTS : List String :=
  [".jpg", ".jpeg", ".png", ".bmp", ".gif", ".tif", ".tiff", ".webp"]

/-- A directory entry: its name, whether it is a regular file, and the result
of decoding it with PIL (`none` = `Image.open`/`convert` raises). -/
structure SrcFile where
  name : String
  isFile : Bool
  dims : Option (Nat × Nat)
deriving DecidableEq, Repr

/-- The `ImageItem` dataclass. -/
structure ImageItem where
  path : SrcFile
  mileage_text : String
  mileage_value : WithTop ℚ
  y_value : ℤ
deriving DecidableEq, Repr

/-- Model of `stem.split("-", 1)`: the part before the first '-', and (when a '-'
occurs) the part after it. -/
def splitDash (l : List Char) : List Char × Option (List Char) :=
  let a := l.takeWhile (fun c => c ≠ '-')
  match l.dropWhile (fun c => c ≠ '-') with
  | _ :: tl => (a, some tl)
  | [] => (a, none)

/-- Derivation of `(mileage_text, y_value)` from a stem, as in the body of
`find_images`: split on the first '-', strip, parse the right part as an
integer with fallback 0.  (The `IndexError` alternative in the source is
dead: `split("-", 1)` returns two parts whenever '-' occurs.) -/
def stemInfo (stem : String) : String × ℤ :=
  match splitDash stem.data with
  | (a, some b) => (pyStrip ⟨a⟩, (parseIntPy (pyStrip ⟨b⟩)).getD 0)
  | (a, none) => (pyStrip ⟨a⟩, 0)

/-- Construction of one `ImageItem` from a directory entry. -/
def toItem (f : SrcFile) : ImageItem :=
  let info := stemInfo (pathStem f.name)
  { path := f
    mileage_text := info.1
    mileage_value := parse_mileage info.1
    y_value := info.2 }

/-- The filter `path.is_file() and path.suffix.lower() in IMAGE_EXTS`. -/
def isSupported (f : SrcFile) : Bool :=
  f.isFile && IMAGE_EXTS.contains (strLower (pathSuffix f.name))

/-- The items accumulated by `find_images` before sorting, in directory
iteration order. -/
def rawItems (fs : List SrcFile) : List ImageItem :=
  (fs.filter isSupported).map toItem

/-- The Python sort key `(mileage_value, y_value, mileage_text)`, as a
lexicographic triple; the string is compared by code points (its character
list), exactly Python's string comparison. -/
def toKey (it : ImageItem) : (WithTop ℚ) ×ₗ (ℤ ×ₗ List Char) :=
  toLex (it.mileage_value, toLex (it.y_value, it.mileage_text.data))

/-- Comparison of two items by their sort keys. -/
def keyLe (a b : ImageItem) : Prop := toKey a ≤ toKey b

instance : DecidableRel keyLe :=
  fun a b => inferInstanceAs (Decidable (toKey a ≤ toKey b))

instance : IsTotal ImageItem keyLe := ⟨fun a b => le_total (toKey a) (toKey b)⟩

instance : IsTrans ImageItem keyLe := ⟨fun _ _ _ => le_trans⟩

/-- Function `find_images`: filter the directory listing, build items, sort stably by
`(mileage_value, y_value, mileage_text)` (Python `list.sort` is a stable sort
over this total preorder, as is insertion sort). -/
def find_images (fs : List SrcFile) : List ImageItem :=
  List.insertionSort keyLe (rawItems fs)

/-! ### `chunked` -/

/-- Loop body of `chunked`: `row` is the pending accumulator. -/
def chunkAux {α : Type} (size : Nat) : List α → List α → List (List α)
  | [], row => if row.isEmpty then [] else [row]
  | x :: xs, row =>
    let row2 := row ++ [x]
    if row2.length = size then row2 :: chunkAux size xs [] else chunkAux size xs row2

/-- Function `chunked(items, size)`: consume in chunks of `size`, last chunk may be
shorter.  (As in the source, `size = 0` never triggers the length test and
yields a single chunk.) -/
def chunked {α : Type} (items : List α) (size : Nat) : List (List α) :=
  chunkAux size items []

/-! ### `prepare_image_stream` -/

/-- The canvas produced by `prepare_image_stream`: exact target pixel size,
pasted (resized) dimensions, centered paste offset, background fill.  The
raster content itself is opaque to the table layout and not modelled. -/
structure Canvas where
  W : ℤ
  H : ℤ
  pw : ℤ
  ph : ℤ
  ox : ℤ
  oy : ℤ
  background : String
deriving DecidableEq, Repr

/-- The value `scale = min(target_w / img.width, target_h / img.height, 1.0)`. -/
def scaleFactor (w h : Nat) (target_w target_h : ℤ) : ℚ :=
  min ((target_w : ℚ) / (w : ℚ)) (min ((target_h : ℚ) / (h : ℚ)) 1)

/-- Function `prepare_image_stream` on a successfully opened source of pixel size
`w × h`: target box at 220 dpi, aspect-preserving scale capped at 1.0,
dimensions floored at one pixel, centered paste (Python `//` is floor
division), white background. -/
def prepare_image_stream (w h : Nat) (width_cm height_cm : ℚ) : Canvas :=
  let dpi : ℚ := 220
  let target_w : ℤ := roundHE (width_cm / 2.54 * dpi)
  let target_h : ℤ := roundHE (height_cm / 2.54 * dpi)
  let scale : ℚ := scaleFactor w h target_w target_h
  let nw : ℤ := max 1 (roundHE ((w : ℚ) * scale))
  let nh : ℤ := max 1 (roundHE ((h : ℚ) * scale))
  { W := target_w, H := target_h, pw := nw, ph := nh,
    ox := Int.fdiv (target_w - nw) 2, oy := Int.fdiv (target_h - nh) 2,
    background := "white" }

/-! ### `build_document` -/

/-- Content of one table cell: empty text, an embedded picture, or caption
text. -/
inductive Cell
  | blank
  | pic (name : String)
  | txt (s : String)
deriving DecidableEq, Repr

/-- Observable events of a run, in program order: a canvas committed to an
image cell, a progress-callback invocation, a caption committed to a caption
cell, the final `document.save`. -/
inductive Ev
  | embed (name : String)
  | progress (done total : Nat)
  | caption (text : String)
  | save
deriving DecidableEq, Repr

/-- The caption f-string
`f"图5.6-{image_index} {mileage_text}S{s_cycle}沉降曲线"` with
`s_cycle = (image_index - 1) % 3 + 1`, as a function of the text. -/
def labelOf (n : Nat) (mt : String) : String :=
  "图5.6-" ++ toString n ++ " " ++ mt ++ "S" ++
    toString ((n - 1) % 3 + 1) ++ "沉降曲线"

/-- The caption of the item embedded while `image_index = n`. -/
def slotLabel (n : Nat) (it : ImageItem) : String :=
  labelOf n it.mileage_text

/-- Predicate: `Image.open` succeeds on this item. -/
def decodeOk (it : ImageItem) : Bool := it.path.dims.isSome

/-- Result of processing one chunk (`row_images`): the image row, the caption
row below it, the events emitted, the next value of `image_index`, and
whether `prepare_image_stream` raised.  The loop `for col_idx, cell_idx in
enumerate((0, 2))` touches only cells 0 and 2 and only the first two items of
the chunk; cells start as empty text and stay blank past a raised
exception. -/
def buildChunk (c : List ImageItem) (n total : Nat) :
    List Cell × List Cell × List Ev × Nat × Bool :=
  match c with
  | [] => ([.blank, .blank, .blank], [.blank, .blank, .blank], [], n, false)
  | [a] =>
    if decodeOk a then
      ([.pic a.path.name, .blank, .blank], [.txt (slotLabel n a), .blank, .blank],
       [.embed a.path.name, .progress n total, .caption (slotLabel n a)], n + 1, false)
    else
      ([.blank, .blank, .blank], [.blank, .blank, .blank], [], n, true)
  | a :: b :: _ =>
    if decodeOk a then
      if decodeOk b then
        ([.pic a.path.name, .blank, .pic b.path.name],
         [.txt (slotLabel n a), .blank, .txt (slotLabel (n + 1) b)],
         [.embed a.path.name, .progress n total, .caption (slotLabel n a),
          .embed b.path.name, .progress (n + 1) total, .caption (slotLabel (n + 1) b)],
         n + 2, false)
      else
        ([.pic a.path.name, .blank, .blank], [.txt (slotLabel n a), .blank, .blank],
         [.embed a.path.name, .progress n total, .caption (slotLabel n a)], n + 1, true)
    else
      ([.blank, .blank, .blank], [.blank, .blank, .blank], [], n, true)

/-- The chunk loop of `build_document`: two physical rows per chunk; an
exception from `prepare_image_stream` aborts the loop (later chunks are not
reached). -/
def buildRowsAux (total : Nat) : List (List ImageItem) → Nat → List (List Cell) × List Ev × Bool
  | [], _ => ([], [], false)
  | c :: rest, n =>
    let r := buildChunk c n total
    if r.2.2.2.2 then ([r.1, r.2.1], r.2.2.1, true)
    else
      let t := buildRowsAux total rest r.2.2.2.1
      (r.1 :: r.2.1 :: t.1, r.2.2.1 ++ t.2.1, t.2.2)

/-- The in-memory document produced by `build_document`: the (fixed) column
count of the table, the per-row cell widths `[width_cm, gap_width, width_cm]`,
the rows in order, the event trace, and whether an image raised. -/
structure BuildOut where
  cols : Nat
  columnWidths : List ℚ
  gapWidth : ℚ
  rows : List (List Cell)
  trace : List Ev
  failed : Bool

/-- Function `build_document`: a 3-column table, `gap_width = max(0.1, 11.70 - 2.76 -
width_cm)`, then the chunk loop with `image_index` starting at 1 and
`total = len(images)`. -/
def build_document (images : List ImageItem) (per_row : Nat)
    (width_cm height_cm : ℚ) : BuildOut :=
  let gap_width : ℚ := max 0.1 (11.70 - 2.76 - width_cm)
  let bw := buildRowsAux images.length (chunked images per_row) 1
  { cols := 3
    columnWidths := [width_cm, gap_width, width_cm]
    gapWidth := gap_width
    rows := bw.1
    trace := bw.2.1
    failed := bw.2.2 }

/-! ### `generate_word_report` -/

/-- The fatal errors of `generate_word_report`: `FileNotFoundError`,
`ValueError("No supported image files...")`, and a propagated decode
exception. -/
inductive RunErr
  | dirNotFound
  | noImages
  | imageError
deriving DecidableEq, Repr

/-- Function `generate_word_report` on a directory value (`none` = missing): the event
trace of the run and the error it raises, if any.  `document.save` appends
the `.save` event; on success the function returns nothing, the saved
artifact being the only outcome. -/
def generate_word_report (dir : Option (List SrcFile)) (per_row : Nat)
    (width_cm height_cm : ℚ) : List Ev × Option RunErr :=
  match dir with
  | none => ([], some RunErr.dirNotFound)
  | some fs =>
    let images := find_images fs
    if images.isEmpty then ([], some RunErr.noImages)
    else
      let b := build_document images per_row width_cm height_cm
      if b.failed then (b.trace, some RunErr.imageError)
      else (b.trace ++ [Ev.save], none)

/-! ### Specification-level descriptions of the build (proved equal to the
code's output below) -/

/-- The items that actually receive a cell: the first two of every chunk, in
chunk order. -/
def embeddedSeq {α : Type} (l : List α) (per_row : Nat) : List α :=
  (chunked l per_row).flatMap (fun c => c.take 2)

/-- The three events one embedded image contributes, in program order. -/
def tripleEv (n total : Nat) (it : ImageItem) : List Ev :=
  [.embed it.path.name, .progress n total, .caption (slotLabel n it)]

/-- The event trace of a failure-free run over the embedded items, as a flat
recursion: image `k` (0-based) of the sequence gets counter value `n + k`. -/
def traceSpec (total : Nat) : List ImageItem → Nat → List Ev
  | [], _ => []
  | it :: rest, n => tripleEv n total it ++ traceSpec total rest (n + 1)

/-- The caption texts of a failure-free run, with counter starting at `n`. -/
def labelsSpec : List ImageItem → Nat → List String
  | [], _ => []
  | it :: rest, n => slotLabel n it :: labelsSpec rest (n + 1)

/-- The image row a chunk produces. -/
def imgRowSpec (c : List ImageItem) : List Cell :=
  match c with
  | [] => [.blank, .blank, .blank]
  | [a] => [.pic a.path.name, .blank, .blank]
  | a :: b :: _ => [.pic a.path.name, .blank, .pic b.path.name]

/-- The caption row a chunk produces when its first image has counter `n`. -/
def capRowSpec (c : List ImageItem) (n : Nat) : List Cell :=
  match c with
  | [] => [.blank, .blank, .blank]
  | [a] => [.txt (slotLabel n a), .blank, .blank]
  | a :: b :: _ => [.txt (slotLabel n a), .blank, .txt (slotLabel (n + 1) b)]

/-- The table rows of a failure-free run: each chunk yields its image row
directly followed by its caption row. -/
def rowsSpec : List (List ImageItem) → Nat → List (List Cell)
  | [], _ => []
  | c :: rest, n => imgRowSpec c :: capRowSpec c n :: rowsSpec rest (n + (c.take 2).length)

/-- Caption texts appearing in a trace, in order. -/
def capTexts (t : List Ev) : List String :=
  t.filterMap (fun e => match e with | .caption s => some s | _ => none)

/-- Names of embedded images appearing in a trace, in order. -/
def embedNames (t : List Ev) : List String :=
  t.filterMap (fun e => match e with | .embed s => some s | _ => none)

/-- The `(done, total)` pairs passed to the progress callback, in order. -/
def progressPairs (t : List Ev) : List (Nat × Nat) :=
  t.filterMap (fun e => match e with | .progress d tt => some (d, tt) | _ => none)

/-- The embedded items of a chunk list: the first two of each chunk. -/
def take2Flat (chunks : List (List ImageItem)) : List ImageItem :=
  chunks.flatMap (fun c => c.take 2)

/-! ### Lemmas: the chunk loop realizes the flat specification -/

theorem take2Flat_cons (c : List ImageItem) (rest : List (List ImageItem)) :
    take2Flat (c :: rest) = c.take 2 ++ take2Flat rest := by
  simp [take2Flat]

theorem embeddedSeq_eq_take2Flat (l : List ImageItem) (per_row : Nat) :
    embeddedSeq l per_row = take2Flat (chunked l per_row) := rfl

theorem traceSpec_append (total : Nat) (l1 l2 : List ImageItem) (n : Nat) :
    traceSpec total (l1 ++ l2) n =
      traceSpec total l1 n ++ traceSpec total l2 (n + l1.length) := by
  induction l1 generalizing n with
  | nil => simp [traceSpec]
  | cons it rest ih =>
    have harith : n + (rest.length + 1) = n + 1 + rest.length := by omega
    rw [List.cons_append, traceSpec, traceSpec, ih, List.append_assoc,
      List.length_cons, harith]

theorem buildRowsAux_eq (total : Nat) (chunks : List (List ImageItem)) (n : Nat)
    (h : ∀ it ∈ take2Flat chunks, decodeOk it = true) :
    buildRowsAux total chunks n =
      (rowsSpec chunks n, traceSpec total (take2Flat chunks) n, false) := by
  induction chunks generalizing n with
  | nil => simp [buildRowsAux, rowsSpec, traceSpec, take2Flat]
  | cons c rest ih =>
    have hc : ∀ it ∈ c.take 2, decodeOk it = true := by
      intro it hit
      exact h it (by rw [take2Flat_cons]; exact List.mem_append_left _ hit)
    have hrest : ∀ it ∈ take2Flat rest, decodeOk it = true := by
      intro it hit
      exact h it (by rw [take2Flat_cons]; exact List.mem_append_right _ hit)
    rw [take2Flat_cons, traceSpec_append]
    match c with
    | [] =>
      simp [buildRowsAux, buildChunk, rowsSpec, imgRowSpec, capRowSpec,
        traceSpec, ih _ hrest]
    | [a] =>
      have ha : decodeOk a = true := hc a (by simp)
      simp [buildRowsAux, buildChunk, ha, rowsSpec, imgRowSpec, capRowSpec,
        ih _ hrest, traceSpec, tripleEv]
    | a :: b :: tl =>
      have ha : decodeOk a = true := hc a (by simp)
      have hb : decodeOk b = true := hc b (by simp [List.take])
      simp [buildRowsAux, buildChunk, ha, hb, rowsSpec, imgRowSpec, capRowSpec,
        ih _ hrest, traceSpec, tripleEv, List.take]

theorem capTexts_append (t1 t2 : List Ev) :
    capTexts (t1 ++ t2) = capTexts t1 ++ capTexts t2 := by
  simp [capTexts]

theorem embedNames_append (t1 t2 : List Ev) :
    embedNames (t1 ++ t2) = embedNames t1 ++ embedNames t2 := by
  simp [embedNames]

theorem progressPairs_append (t1 t2 : List Ev) :
    progressPairs (t1 ++ t2) = progressPairs t1 ++ progressPairs t2 := by
  simp [progressPairs]

theorem capTexts_traceSpec (total : Nat) (l : List ImageItem) (n : Nat) :
    capTexts (traceSpec total l n) = labelsSpec l n := by
  induction l generalizing n with
  | nil => rfl
  | cons it rest ih =>
    rw [traceSpec, capTexts_append, labelsSpec, ih]
    rfl

theorem embedNames_traceSpec (total : Nat) (l : List ImageItem) (n : Nat) :
    embedNames (traceSpec total l n) = l.map (fun it => it.path.name) := by
  induction l generalizing n with
  | nil => rfl
  | cons it rest ih =>
    rw [traceSpec, embedNames_append, List.map_cons, ih]
    rfl

theorem progressPairs_traceSpec (total : Nat) (l : List ImageItem) (n : Nat) :
    progressPairs (traceSpec total l n) =
      (List.range l.length).map (fun k => (n + k, total)) := by
  induction l generalizing n with
  | nil => rfl
  | cons it rest ih =>
    have hhead : progressPairs (tripleEv n total it) = [(n, total)] := rfl
    have hcomp : (fun k => (n + k, total)) ∘ Nat.succ = fun k => (n + 1 + k, total) := by
      funext k
      show (n + (k + 1), total) = (n + 1 + k, total)
      have harith : n + (k + 1) = n + 1 + k := by omega
      rw [harith]
    rw [traceSpec, progressPairs_append, hhead, ih, List.length_cons,
      List.range_succ_eq_map, List.map_cons, List.map_map, hcomp]
    simp

theorem labelsSpec_getElem (l : List ImageItem) (n k : Nat) :
    (labelsSpec l n)[k]? = (l[k]?).map (fun it => slotLabel (n + k) it) := by
  induction l generalizing n k with
  | nil => simp [labelsSpec]
  | cons it rest ih =>
    match k with
    | 0 => simp [labelsSpec]
    | k + 1 =>
      simp only [labelsSpec, List.getElem?_cons_succ, ih]
      have harith : n + 1 + k = n + (k + 1) := by omega
      rw [harith]

theorem labelsSpec_length (l : List ImageItem) (n : Nat) :
    (labelsSpec l n).length = l.length := by
  induction l generalizing n with
  | nil => rfl
  | cons it rest ih => simp [labelsSpec, ih]

/-! ### Lemmas: structure of `chunked` -/

theorem chunkAux_flatten {α : Type} (size : Nat) (l row : List α) :
    (chunkAux size l row).flatten = row ++ l := by
  induction l generalizing row with
  | nil =>
    by_cases h : row.isEmpty
    · simp [chunkAux, h, List.isEmpty_iff.mp h]
    · simp [chunkAux, h]
  | cons x xs ih =>
    by_cases h : (row ++ [x]).length = size
    · have h2 : row.length + 1 = size := by simpa using h
      simp [chunkAux, h2, ih]
    · have h2 : ¬ row.length + 1 = size := by simpa using h
      simp [chunkAux, h2, ih]

theorem chunked_flatten {α : Type} (l : List α) (size : Nat) :
    (chunked l size).flatten = l := by
  simpa using chunkAux_flatten size l []

theorem chunkAux_length_le {α : Type} (size : Nat) (hsz : 0 < size) (l : List α) :
    ∀ (row : List α), row.length < size →
      ∀ c ∈ chunkAux size l row, c.length ≤ size := by
  induction l with
  | nil =>
    intro row hrow c hc
    by_cases h : row.isEmpty
    · simp [chunkAux, h] at hc
    · have hceq : c = row := by simpa [chunkAux, h] using hc
      subst hceq
      omega
  | cons x xs ih =>
    intro row hrow c hc
    by_cases h : (row ++ [x]).length = size
    · simp only [chunkAux, h, if_pos] at hc
      rcases List.mem_cons.mp hc with rfl | hc2
      · omega
      · exact ih [] hsz c hc2
    · simp only [chunkAux, h, if_neg, not_false_iff] at hc
      have hlt : (row ++ [x]).length < size := by
        simp only [List.length_append, List.length_cons, List.length_nil] at h ⊢
        omega
      exact ih _ hlt c hc

theorem take_two_of_length_le {α : Type} (c : List α) (h : c.length ≤ 2) :
    c.take 2 = c := by
  match c with
  | [] => rfl
  | [a] => rfl
  | [a, b] => rfl
  | a :: b :: d :: tl => simp at h

theorem embeddedSeq_eq_self (l : List ImageItem) (per_row : Nat)
    (h : per_row = 1 ∨ per_row = 2) :
    embeddedSeq l per_row = l := by
  have hsz : 0 < per_row := by rcases h with rfl | rfl <;> decide
  have hle : ∀ c ∈ chunked l per_row, c.length ≤ 2 := by
    intro c hc
    have := chunkAux_length_le per_row hsz l [] (by simpa using hsz) c hc
    rcases h with rfl | rfl <;> omega
  rw [embeddedSeq_eq_take2Flat]
  have : ∀ chunks : List (List ImageItem), (∀ c ∈ chunks, c.length ≤ 2) →
      take2Flat chunks = chunks.flatten := by
    intro chunks
    induction chunks with
    | nil => intro _; rfl
    | cons c rest ih =>
      intro hmem
      rw [take2Flat_cons, List.flatten_cons, ih (fun d hd => hmem d (List.mem_cons_of_mem _ hd)),
        take_two_of_length_le c (hmem c (List.mem_cons_self c rest))]
  rw [this _ hle, chunked_flatten]

theorem chunkAux_map {α β : Type} (f : α → β) (size : Nat) (l row : List α) :
    chunkAux size (l.map f) (row.map f) = (chunkAux size l row).map (List.map f) := by
  induction l generalizing row with
  | nil =>
    by_cases h : row.isEmpty
    · simp [chunkAux, List.isEmpty_iff.mp h]
    · have h2 : ¬ (row.map f).isEmpty = true := by
        simpa [List.isEmpty_iff] using h
      simp [chunkAux, h, h2]
  | cons x xs ih =>
    by_cases h : (row ++ [x]).length = size
    · have h2 : (row.map f ++ [f x]).length = size := by simpa using h
      have hih := ih []
      simp only [List.map_nil] at hih
      simp only [List.map_cons, chunkAux, h2, h, if_pos, List.map_append, hih,
        List.map_nil]
    · have h2 : ¬ (row.map f ++ [f x]).length = size := by simpa using h
      have hih := ih (row ++ [x])
      simp only [List.map_append, List.map_cons, List.map_nil] at hih
      simp only [List.map_cons, chunkAux, h2, h, if_neg, not_false_iff, List.map_append,
        List.map_nil, hih]

theorem chunked_map {α β : Type} (f : α → β) (l : List α) (size : Nat) :
    chunked (l.map f) size = (chunked l size).map (List.map f) := by
  simpa using chunkAux_map f size l []

theorem rowsSpec_length (chunks : List (List ImageItem)) (n : Nat) :
    (rowsSpec chunks n).length = 2 * chunks.length := by
  induction chunks generalizing n with
  | nil => rfl
  | cons c rest ih =>
    simp only [rowsSpec, List.length_cons, ih]
    omega

/-! ### Lemmas: the failure path -/

theorem save_not_mem_buildChunk (c : List ImageItem) (n total : Nat) :
    Ev.save ∉ (buildChunk c n total).2.2.1 := by
  match c with
  | [] => simp [buildChunk]
  | [a] =>
    by_cases h : decodeOk a <;> simp [buildChunk, h]
  | a :: b :: tl =>
    by_cases h1 : decodeOk a <;> by_cases h2 : decodeOk b <;>
      simp [buildChunk, h1, h2]

theorem save_not_mem_buildRowsAux (total : Nat) (chunks : List (List ImageItem)) (n : Nat) :
    Ev.save ∉ (buildRowsAux total chunks n).2.1 := by
  induction chunks generalizing n with
  | nil => simp [buildRowsAux]
  | cons c rest ih =>
    rw [buildRowsAux]
    by_cases h : (buildChunk c n total).2.2.2.2
    · simp only [h, if_pos]
      exact save_not_mem_buildChunk c n total
    · simp only [h, if_neg, not_false_iff, Bool.false_eq_true]
      intro hmem
      rcases List.mem_append.mp hmem with h1 | h2
      · exact save_not_mem_buildChunk c n total h1
      · exact ih _ h2

theorem buildChunk_failed_of_bad (c : List ImageItem) (n total : Nat)
    (h : ∃ it ∈ c.take 2, decodeOk it = false) :
    (buildChunk c n total).2.2.2.2 = true := by
  match c with
  | [] => simp at h
  | [a] =>
    rcases h with ⟨it, hmem, hbad⟩
    simp only [List.take, List.mem_singleton] at hmem
    subst hmem
    simp [buildChunk, hbad]
  | a :: b :: tl =>
    rcases h with ⟨it, hmem, hbad⟩
    have hmem2 : it = a ∨ it = b := by
      simpa [List.take] using hmem
    by_cases h1 : decodeOk a
    · by_cases h2 : decodeOk b
      · rcases hmem2 with rfl | rfl
        · rw [h1] at hbad; cases hbad
        · rw [h2] at hbad; cases hbad
      · simp [buildChunk, h1, h2]
    · simp [buildChunk, h1]

theorem buildRowsAux_failed_of_bad (total : Nat) (chunks : List (List ImageItem)) (n : Nat)
    (h : ∃ it ∈ take2Flat chunks, decodeOk it = false) :
    (buildRowsAux total chunks n).2.2 = true := by
  induction chunks generalizing n with
  | nil => simp [take2Flat] at h
  | cons c rest ih =>
    rcases h with ⟨it, hmem, hbad⟩
    rw [take2Flat_cons] at hmem
    rw [buildRowsAux]
    by_cases hf : (buildChunk c n total).2.2.2.2
    · simp [hf]
    · rcases List.mem_append.mp hmem with h1 | h2
      · exact absurd (buildChunk_failed_of_bad c n total ⟨it, h1, hbad⟩) hf
      · simp only [hf, if_neg, not_false_iff, Bool.false_eq_true]
        exact ih _ ⟨it, h2, hbad⟩

/-! ### Lemmas: the sort of `find_images` -/

theorem find_images_sorted (fs : List SrcFile) :
    List.Sorted keyLe (find_images fs) :=
  List.sorted_insertionSort keyLe (rawItems fs)

theorem find_images_perm_rawItems (fs : List SrcFile) :
    List.Perm (find_images fs) (rawItems fs) :=
  List.perm_insertionSort keyLe (rawItems fs)

theorem rawItems_perm {l1 l2 : List SrcFile} (h : List.Perm l1 l2) :
    List.Perm (rawItems l1) (rawItems l2) :=
  (h.filter isSupported).map toItem

theorem find_images_perm {l1 l2 : List SrcFile} (h : List.Perm l1 l2) :
    List.Perm (find_images l1) (find_images l2) :=
  (find_images_perm_rawItems l1).trans ((rawItems_perm h).trans
    (find_images_perm_rawItems l2).symm)

theorem find_images_keys_eq_of_perm {l1 l2 : List SrcFile} (h : List.Perm l1 l2) :
    (find_images l1).map toKey = (find_images l2).map toKey := by
  exact List.eq_of_perm_of_sorted (r := fun a b => a ≤ b)
    ((find_images_perm h).map toKey)
    (List.Pairwise.map toKey (fun a b hab => hab) (find_images_sorted l1))
    (List.Pairwise.map toKey (fun a b hab => hab) (find_images_sorted l2))

/-- Extraction of the third key component. -/
def keyMt (k : (WithTop ℚ) ×ₗ (ℤ ×ₗ List Char)) : String := ⟨(ofLex (ofLex k).2).2⟩

theorem find_images_mts_eq_of_perm {l1 l2 : List SrcFile} (h : List.Perm l1 l2) :
    (find_images l1).map (fun it => it.mileage_text) =
      (find_images l2).map (fun it => it.mileage_text) := by
  have hk := congrArg (List.map keyMt) (find_images_keys_eq_of_perm h)
  simpa [List.map_map] using hk

theorem find_images_eq_nil_iff (fs : List SrcFile) :
    find_images fs = [] ↔ ∀ f ∈ fs, isSupported f = false := by
  constructor
  · intro hnil
    have hperm := find_images_perm_rawItems fs
    rw [hnil] at hperm
    have hraw : rawItems fs = [] := hperm.symm.eq_nil
    rw [rawItems, List.map_eq_nil_iff, List.filter_eq_nil_iff] at hraw
    intro f hf
    have := hraw f hf
    simpa using this
  · intro hall
    have hraw : rawItems fs = [] := by
      rw [rawItems, List.map_eq_nil_iff, List.filter_eq_nil_iff]
      intro f hf
      simp [hall f hf]
    rw [find_images, hraw]
    rfl

/-! ### Lemmas: captions as a function of the mileage texts -/

/-- The caption sequence generated from a list of mileage texts, counter
starting at `n`. -/
def labelsOfMts : List String → Nat → List String
  | [], _ => []
  | mt :: rest, n => labelOf n mt :: labelsOfMts rest (n + 1)

theorem labelsSpec_eq_ofMts (l : List ImageItem) (n : Nat) :
    labelsSpec l n = labelsOfMts (l.map (fun it => it.mileage_text)) n := by
  induction l generalizing n with
  | nil => rfl
  | cons it rest ih => simp [labelsSpec, labelsOfMts, ih, slotLabel]

theorem embeddedSeq_map {α β : Type} (f : α → β) (l : List α) (p : Nat) :
    embeddedSeq (l.map f) p = (embeddedSeq l p).map f := by
  unfold embeddedSeq
  rw [chunked_map, List.flatMap_map, List.map_flatMap]
  simp [List.map_take]

theorem mem_of_mem_take2Flat {it : ImageItem} {chunks : List (List ImageItem)}
    (h : it ∈ take2Flat chunks) : it ∈ chunks.flatten := by
  rcases List.mem_flatMap.mp h with ⟨c, hc, hit⟩
  exact List.mem_flatten.mpr ⟨c, hc, List.take_subset 2 c hit⟩

/-- A failure-free `build_document`, written out: fixed 3-column geometry and
the flat trace/rows over the embedded items. -/
theorem build_document_spec (images : List ImageItem) (per_row : Nat)
    (wcm hcm : ℚ) (h : ∀ it ∈ images, decodeOk it = true) :
    build_document images per_row wcm hcm =
      { cols := 3
        columnWidths := [wcm, max 0.1 (11.70 - 2.76 - wcm), wcm]
        gapWidth := max 0.1 (11.70 - 2.76 - wcm)
        rows := rowsSpec (chunked images per_row) 1
        trace := traceSpec images.length (embeddedSeq images per_row) 1
        failed := false } := by
  have hok : ∀ it ∈ take2Flat (chunked images per_row), decodeOk it = true := by
    intro it hit
    exact h it (by rw [← chunked_flatten images per_row]; exact mem_of_mem_take2Flat hit)
  unfold build_document
  rw [buildRowsAux_eq images.length (chunked images per_row) 1 hok,
    embeddedSeq_eq_take2Flat]

/-! ### Concrete inputs used by the claim theorems -/

/-- A supported, decodable 100×50 image file. -/
def jpgFile (n : String) : SrcFile := ⟨n, true, some (100, 50)⟩

def files2 : List SrcFile := [jpgFile "1-1.jpg", jpgFile "2-1.jpg"]

def files3 : List SrcFile := [jpgFile "1-1.jpg", jpgFile "2-1.jpg", jpgFile "3-1.jpg"]

def files5 : List SrcFile :=
  [jpgFile "1-1.jpg", jpgFile "2-1.jpg", jpgFile "3-1.jpg", jpgFile "4-1.jpg",
   jpgFile "5-1.jpg"]

def files7 : List SrcFile :=
  [jpgFile "1-1.jpg", jpgFile "2-1.jpg", jpgFile "3-1.jpg", jpgFile "4-1.jpg",
   jpgFile "5-1.jpg", jpgFile "6-1.jpg", jpgFile "7-1.jpg"]

def filesC2 : List SrcFile :=
  [jpgFile "100-2.jpg", jpgFile "50-9.jpg", jpgFile "abc.jpg", jpgFile "100-1.jpg"]

/-- Two files with identical sort keys (same stem, different extension and
pixel content). -/
def tieA : SrcFile := ⟨"100-2.jpg", true, some (10, 10)⟩

def tieB : SrcFile := ⟨"100-2.png", true, some (20, 20)⟩

/-- A listing whose second image fails to decode. -/
def filesBad : List SrcFile := [jpgFile "1-1.jpg", ⟨"2-1.jpg", true, none⟩]

/-- A listing whose third image fails to decode (a dropped slot when
`per_row = 3`). -/
def filesBad3 : List SrcFile :=
  [jpgFile "1-1.jpg", jpgFile "2-1.jpg", ⟨"3-1.jpg", true, none⟩]

/-! ### Claim theorems -/

/-- C1: in final output order, the k-th embedded image's caption is exactly
`图5.6-{n} {mileage_text}S{c}沉降曲线` where `n = k` is the value of the single
global 1-based counter (contiguous `1..total` over the embedded sequence, in
the parser's sorted order) and `c = ((n - 1) mod 3) + 1`; for 7 images the
`c` sequence is 1,2,3,1,2,3,1. -/
theorem c1_caption_numbering (images : List ImageItem) (per_row : Nat)
    (wcm hcm : ℚ) (h : ∀ it ∈ images, decodeOk it = true) :
    (∀ k : Nat, (capTexts (build_document images per_row wcm hcm).trace)[k]? =
        ((embeddedSeq images per_row)[k]?).map (fun it =>
          "图5.6-" ++ toString (k + 1) ++ " " ++ it.mileage_text ++ "S" ++
            toString ((k + 1 - 1) % 3 + 1) ++ "沉降曲线"))
    ∧ (capTexts (build_document images per_row wcm hcm).trace).length =
        (embeddedSeq images per_row).length
    ∧ capTexts (build_document (find_images files7) 2 (76/10) (47/10)).trace =
        ["图5.6-1 1S1沉降曲线", "图5.6-2 2S2沉降曲线", "图5.6-3 3S3沉降曲线",
         "图5.6-4 4S1沉降曲线", "图5.6-5 5S2沉降曲线", "图5.6-6 6S3沉降曲线",
         "图5.6-7 7S1沉降曲线"] := by
  have hb := build_document_spec images per_row wcm hcm h
  refine ⟨?_, ?_, by decide⟩
  · intro k
    rw [hb]
    show (capTexts (traceSpec images.length (embeddedSeq images per_row) 1))[k]? = _
    rw [capTexts_traceSpec, labelsSpec_getElem]
    have harith : 1 + k = k + 1 := by omega
    rw [harith]
    rfl
  · rw [hb]
    show (capTexts (traceSpec images.length (embeddedSeq images per_row) 1)).length = _
    rw [capTexts_traceSpec, labelsSpec_length]

theorem c1_caption_numbering_witness :
    (capTexts (build_document (find_images files7) 2 (76/10) (47/10)).trace)[2]? =
      ((embeddedSeq (find_images files7) 2)[2]?).map (fun it =>
        "图5.6-" ++ toString (2 + 1) ++ " " ++ it.mileage_text ++ "S" ++
          toString ((2 + 1 - 1) % 3 + 1) ++ "沉降曲线") :=
  (c1_caption_numbering (find_images files7) 2 (76/10) (47/10) (by decide)).1 2

/-- C2: the function `find_images` returns the discovered items sorted ascending by the
lexicographic key `(mileage_value, y_value, mileage_text)` (a permutation of
the discovered set, unparsable mileage last via the `⊤` sentinel), and on the
stems `100-2, 50-9, abc, 100-1` the order is `50-9, 100-1, 100-2, abc`. -/
theorem c2_ordering :
    (∀ fs : List SrcFile, List.Sorted keyLe (find_images fs) ∧
        List.Perm (find_images fs) (rawItems fs))
    ∧ (find_images filesC2).map (fun it => it.path.name) =
        ["50-9.jpg", "100-1.jpg", "100-2.jpg", "abc.jpg"] :=
  ⟨fun fs => ⟨find_images_sorted fs, find_images_perm_rawItems fs⟩, by decide⟩

/-- C3 counterexample: with `per_row = 3` and three discovered images, only
two are embedded — the loop over `enumerate((0, 2))` drops every chunk item
past the second, so "every discovered image is embedded in exactly one cell"
fails. -/
theorem c3_cex :
    (find_images files3).length = 3 ∧
    (embedNames (build_document (find_images files3) 3 (76/10) (47/10)).trace).length = 2 ∧
    ¬ ((embedNames (build_document (find_images files3) 3 (76/10) (47/10)).trace).length =
        (find_images files3).length) := by decide

/-- C3 amended: the ordered sequence is consumed in chunks of `per_row`, each
chunk yielding an image row directly followed by its caption row, but only
the first two items of each chunk are embedded (cells 0 and 2, left to
right); for `per_row ≤ 2` every discovered image is embedded in exactly one
cell; for `per_row = 2` and 5 images the row membership is
`[1,2],[3,4],[5]` with the short row's trailing cells blank. -/
theorem c3_rows (images : List ImageItem) (per_row : Nat) (wcm hcm : ℚ)
    (h : ∀ it ∈ images, decodeOk it = true) :
    (embedNames (build_document images per_row wcm hcm).trace =
        (embeddedSeq images per_row).map (fun it => it.path.name))
    ∧ (per_row = 1 ∨ per_row = 2 → embeddedSeq images per_row = images)
    ∧ (build_document images per_row wcm hcm).rows =
        rowsSpec (chunked images per_row) 1
    ∧ (build_document images per_row wcm hcm).rows.length =
        2 * (chunked images per_row).length
    ∧ (build_document (find_images files5) 2 (76/10) (47/10)).rows =
        [[Cell.pic "1-1.jpg", Cell.blank, Cell.pic "2-1.jpg"],
         [Cell.txt "图5.6-1 1S1沉降曲线", Cell.blank, Cell.txt "图5.6-2 2S2沉降曲线"],
         [Cell.pic "3-1.jpg", Cell.blank, Cell.pic "4-1.jpg"],
         [Cell.txt "图5.6-3 3S3沉降曲线", Cell.blank, Cell.txt "图5.6-4 4S1沉降曲线"],
         [Cell.pic "5-1.jpg", Cell.blank, Cell.blank],
         [Cell.txt "图5.6-5 5S2沉降曲线", Cell.blank, Cell.blank]] := by
  have hb := build_document_spec images per_row wcm hcm h
  refine ⟨?_, fun hpr => embeddedSeq_eq_self images per_row hpr, ?_, ?_, by decide⟩
  · rw [hb]
    show embedNames (traceSpec images.length (embeddedSeq images per_row) 1) = _
    rw [embedNames_traceSpec]
  · rw [hb]
  · rw [hb]
    show (rowsSpec (chunked images per_row) 1).length = _
    rw [rowsSpec_length]

theorem c3_rows_witness :
    embeddedSeq (find_images files5) 2 = find_images files5 :=
  (c3_rows (find_images files5) 2 (76/10) (47/10) (by decide)).2.1 (Or.inr rfl)

/-- C6 counterexample: the progress callback for an image fires *before* that
image's caption is committed — in the 2-image run the callback `(1, 2)` is
the second event while the first caption is only the third event, refuting
"invoked immediately after that image's canvas and caption are both
committed, never before either". -/
theorem c6_cex :
    ((build_document (find_images files2) 2 (76/10) (47/10)).trace)[1]? =
      some (Ev.progress 1 2) ∧
    capTexts (((build_document (find_images files2) 2 (76/10) (47/10)).trace).take 2) = [] ∧
    ((build_document (find_images files2) 2 (76/10) (47/10)).trace)[2]? =
      some (Ev.caption "图5.6-1 1S1沉降曲线") := by decide

/-- C6 amended: the callback is invoked synchronously exactly once per
embedded image, after that image's canvas is committed and immediately
before its caption is committed; `total` is constant (the count of
discovered images) and `done` takes the values `1..(number of embedded
images)` in strictly increasing order. -/
theorem c6_progress (images : List ImageItem) (per_row : Nat) (wcm hcm : ℚ)
    (h : ∀ it ∈ images, decodeOk it = true) :
    (build_document images per_row wcm hcm).trace =
        traceSpec images.length (embeddedSeq images per_row) 1
    ∧ progressPairs (build_document images per_row wcm hcm).trace =
        (List.range (embeddedSeq images per_row).length).map
          (fun k => (k + 1, images.length)) := by
  have hb := build_document_spec images per_row wcm hcm h
  constructor
  · rw [hb]
  · rw [hb]
    show progressPairs (traceSpec images.length (embeddedSeq images per_row) 1) = _
    rw [progressPairs_traceSpec]
    apply List.map_congr_left
    intro k _
    have harith : 1 + k = k + 1 := by omega
    rw [harith]

theorem c6_progress_witness :
    progressPairs (build_document (find_images files7) 2 (76/10) (47/10)).trace =
      [(1, 7), (2, 7), (3, 7), (4, 7), (5, 7), (6, 7), (7, 7)] := by
  have h := (c6_progress (find_images files7) 2 (76/10) (47/10) (by decide)).2
  rw [h]
  decide

theorem build_document_trace_def (images : List ImageItem) (per_row : Nat)
    (wcm hcm : ℚ) :
    (build_document images per_row wcm hcm).trace =
      (buildRowsAux images.length (chunked images per_row) 1).2.1 := rfl

/-- C7: `generate_word_report` raises the directory-not-found error iff the
directory is missing, the no-input error iff the directory exists but no
direct child file has a supported extension (case-insensitively); both
errors leave an empty trace (nothing processed, nothing written), and the
saved artifact appears iff the run succeeds (which returns nothing else). -/
theorem c7_error_contract (dir : Option (List SrcFile)) (per_row : Nat)
    (wcm hcm : ℚ) :
    ((generate_word_report dir per_row wcm hcm).2 = some RunErr.dirNotFound ↔
        dir = none)
    ∧ ((generate_word_report dir per_row wcm hcm).2 = some RunErr.noImages ↔
        ∃ fs, dir = some fs ∧ ∀ f ∈ fs, isSupported f = false)
    ∧ ((generate_word_report dir per_row wcm hcm).2 = some RunErr.dirNotFound ∨
        (generate_word_report dir per_row wcm hcm).2 = some RunErr.noImages →
        (generate_word_report dir per_row wcm hcm).1 = [])
    ∧ ((generate_word_report dir per_row wcm hcm).2 = none ↔
        Ev.save ∈ (generate_word_report dir per_row wcm hcm).1) := by
  match dir with
  | none =>
    refine ⟨by simp [generate_word_report], ?_, ?_, ?_⟩
    · simp [generate_word_report]
    · intro _
      rfl
    · simp [generate_word_report]
  | some fs =>
    by_cases hempty : (find_images fs).isEmpty
    · have hall : ∀ f ∈ fs, isSupported f = false :=
        (find_images_eq_nil_iff fs).mp (List.isEmpty_iff.mp hempty)
      refine ⟨by simp [generate_word_report, hempty], ?_, ?_, ?_⟩
      · simp only [generate_word_report, hempty, if_pos]
        exact ⟨fun _ => ⟨fs, rfl, hall⟩, fun _ => trivial⟩
      · intro _
        simp [generate_word_report, hempty]
      · simp [generate_word_report, hempty]
    · have hnoim : ¬ (∃ gs, (some fs = some gs) ∧ ∀ f ∈ gs, isSupported f = false) := by
        rintro ⟨gs, hgs, hall⟩
        cases Option.some.injEq fs gs ▸ hgs
        exact hempty (by
          rw [List.isEmpty_iff]
          exact (find_images_eq_nil_iff fs).mpr hall)
      by_cases hfail : (build_document (find_images fs) per_row wcm hcm).failed
      · refine ⟨by simp [generate_word_report, hempty, hfail], ?_, ?_, ?_⟩
        · simp only [generate_word_report, hempty, hfail, if_neg, if_pos,
            not_false_iff]
          refine ⟨fun heq => ?_, fun hex => absurd hex hnoim⟩
          simp at heq
        · intro hor
          rcases hor with h1 | h1 <;> simp [generate_word_report, hempty, hfail] at h1
        · constructor
          · intro heq
            simp [generate_word_report, hempty, hfail] at heq
          · intro hmem
            simp only [generate_word_report, hempty, hfail, if_neg, if_pos,
              not_false_iff] at hmem
            rw [build_document_trace_def] at hmem
            exact absurd hmem (save_not_mem_buildRowsAux _ _ _)
      · refine ⟨by simp [generate_word_report, hempty, hfail], ?_, ?_, ?_⟩
        · simp only [generate_word_report, hempty, hfail, if_neg, not_false_iff]
          refine ⟨fun heq => ?_, fun hex => absurd hex hnoim⟩
          simp at heq
        · intro hor
          rcases hor with h1 | h1 <;>
            simp [generate_word_report, hempty, hfail] at h1
        · simp [generate_word_report, hempty, hfail]

theorem c7_error_contract_witness :
    (generate_word_report none 2 (76/10) (47/10)).2 = some RunErr.dirNotFound :=
  (c7_error_contract none 2 (76/10) (47/10)).1.mpr rfl

/-- C10 counterexample: an undecodable discovered image sitting in a dropped
slot is never opened, so no exception occurs and `document.save` runs — with
`per_row = 3`, three discovered images and the third undecodable, the run
succeeds and the artifact is written, refuting "no output file is created
until every image has been processed successfully". -/
theorem c10_cex :
    (∃ it ∈ find_images filesBad3, it.path.dims = none) ∧
    (generate_word_report (some filesBad3) 3 (76/10) (47/10)).2 = none ∧
    Ev.save ∈ (generate_word_report (some filesBad3) 3 (76/10) (47/10)).1 := by
  decide

/-- C10 amended: if the build reaches an image whose open/decode raises —
one in an embedded slot (the first two of a chunk), which covers every
discovered image whenever `per_row` is 1 or 2 (the default) — the exception
propagates out of `generate_word_report` before `document.save` is reached
and no output artifact is produced; an undecodable image in a dropped slot
(`per_row ≥ 3`) is never opened, so no exception arises there. -/
theorem c10_abort_before_save (fs : List SrcFile) (per_row : Nat) (wcm hcm : ℚ)
    (hbad : ∃ it ∈ embeddedSeq (find_images fs) per_row, it.path.dims = none) :
    ((generate_word_report (some fs) per_row wcm hcm).2 = some RunErr.imageError ∧
      Ev.save ∉ (generate_word_report (some fs) per_row wcm hcm).1)
    ∧ (per_row = 1 ∨ per_row = 2 →
        embeddedSeq (find_images fs) per_row = find_images fs) := by
  have hne : ¬ (find_images fs).isEmpty = true := by
    rcases hbad with ⟨it, hmem, _⟩
    have hmem2 : it ∈ take2Flat (chunked (find_images fs) per_row) := by
      rw [← embeddedSeq_eq_take2Flat]
      exact hmem
    have hmem3 : it ∈ (chunked (find_images fs) per_row).flatten :=
      mem_of_mem_take2Flat hmem2
    rw [chunked_flatten] at hmem3
    rw [List.isEmpty_iff]
    exact List.ne_nil_of_mem hmem3
  have hfail : (build_document (find_images fs) per_row wcm hcm).failed = true := by
    show (buildRowsAux (find_images fs).length (chunked (find_images fs) per_row) 1).2.2
      = true
    apply buildRowsAux_failed_of_bad
    rcases hbad with ⟨it, hmem, hdims⟩
    refine ⟨it, ?_, ?_⟩
    · rw [← embeddedSeq_eq_take2Flat]
      exact hmem
    · simp [decodeOk, hdims]
  refine ⟨⟨?_, ?_⟩, fun hpr => embeddedSeq_eq_self _ _ hpr⟩
  · simp [generate_word_report, hne, hfail]
  · simp only [generate_word_report, hne, hfail, if_neg, if_pos, not_false_iff]
    rw [build_document_trace_def]
    exact save_not_mem_buildRowsAux _ _ _

theorem c10_abort_before_save_witness :
    (generate_word_report (some filesBad) 2 (76/10) (47/10)).2 =
      some RunErr.imageError ∧
    Ev.save ∉ (generate_word_report (some filesBad) 2 (76/10) (47/10)).1 :=
  (c10_abort_before_save filesBad 2 (76/10) (47/10) (by decide)).1

/-! ### Lemmas for the filename-derivation claim -/

theorem takeWhile_all {α : Type} (p : α → Bool) (s : List α)
    (h : ∀ c ∈ s, p c = true) : s.takeWhile p = s := by
  induction s with
  | nil => rfl
  | cons c cs ih =>
    simp [List.takeWhile_cons, h c (by simp), ih (fun d hd => h d (by simp [hd]))]

theorem dropWhile_all {α : Type} (p : α → Bool) (s : List α)
    (h : ∀ c ∈ s, p c = true) : s.dropWhile p = [] := by
  induction s with
  | nil => rfl
  | cons c cs ih =>
    simp [List.dropWhile_cons, h c (by simp), ih (fun d hd => h d (by simp [hd]))]

theorem takeWhile_append_all {α : Type} (p : α → Bool) (a b : List α)
    (ha : ∀ c ∈ a, p c = true) :
    (a ++ b).takeWhile p = a ++ b.takeWhile p := by
  induction a with
  | nil => rfl
  | cons c cs ih =>
    simp [List.takeWhile_cons, ha c (by simp), ih (fun d hd => ha d (by simp [hd]))]

theorem dropWhile_append_all {α : Type} (p : α → Bool) (a b : List α)
    (ha : ∀ c ∈ a, p c = true) :
    (a ++ b).dropWhile p = b.dropWhile p := by
  induction a with
  | nil => rfl
  | cons c cs ih =>
    simp [List.dropWhile_cons, ha c (by simp), ih (fun d hd => ha d (by simp [hd]))]

theorem splitDash_with_dash (a b : List Char) (ha : '-' ∉ a) :
    splitDash (a ++ '-' :: b) = (a, some b) := by
  have hall : ∀ c ∈ a, (fun c => decide (c ≠ '-')) c = true := by
    intro c hc
    simp only [decide_eq_true_iff]
    intro heq
    exact ha (heq ▸ hc)
  unfold splitDash
  rw [takeWhile_append_all _ a ('-' :: b) hall, dropWhile_append_all _ a ('-' :: b) hall]
  simp [List.takeWhile_cons, List.dropWhile_cons]

theorem splitDash_no_dash (s : List Char) (hs : '-' ∉ s) :
    splitDash s = (s, none) := by
  have hall : ∀ c ∈ s, (fun c => decide (c ≠ '-')) c = true := by
    intro c hc
    simp only [decide_eq_true_iff]
    intro heq
    exact hs (heq ▸ hc)
  unfold splitDash
  rw [takeWhile_all _ s hall, dropWhile_all _ s hall]

theorem scanNum_eq_none_iff (l : List Char) :
    scanNum l = none ↔ ∀ c ∈ l, ¬ c.isDigit = true := by
  induction l with
  | nil => simp [scanNum]
  | cons c rest ih =>
    by_cases hd : c.isDigit = true
    · simp [scanNum, hd]
    · simp [scanNum, hd, ih]

theorem scanNum_append_nodigit (pre l : List Char)
    (h : ∀ c ∈ pre, ¬ c.isDigit = true) :
    scanNum (pre ++ l) = scanNum l := by
  induction pre with
  | nil => rfl
  | cons c cs ih =>
    have hc : ¬ c.isDigit = true := h c (by simp)
    rw [List.cons_append, scanNum, if_neg hc]
    exact ih (fun d hd => h d (by simp [hd]))

theorem scanNum_digit_run (ds rest : List Char) (hne : ds ≠ [])
    (hds : ∀ c ∈ ds, c.isDigit = true)
    (hrest1 : ∀ c0, rest.head? = some c0 → ¬ c0.isDigit = true)
    (hrest2 : ∀ c1 tl, rest = '.' :: c1 :: tl → ¬ c1.isDigit = true) :
    scanNum (ds ++ rest) = some ((digitsToNat ds : ℚ)) := by
  match ds, hne with
  | d :: ds2, _ =>
    have hd : d.isDigit = true := hds d (by simp)
    have htw : (d :: ds2 ++ rest).takeWhile Char.isDigit = d :: ds2 := by
      rw [takeWhile_append_all Char.isDigit (d :: ds2) rest hds]
      have : rest.takeWhile Char.isDigit = [] := by
        match rest with
        | [] => rfl
        | c0 :: tl =>
          have := hrest1 c0 rfl
          simp [List.takeWhile_cons, this]
      rw [this, List.append_nil]
    have hdw : (d :: ds2 ++ rest).dropWhile Char.isDigit = rest := by
      rw [dropWhile_append_all Char.isDigit (d :: ds2) rest hds]
      match rest with
      | [] => rfl
      | c0 :: tl =>
        have := hrest1 c0 rfl
        simp [List.dropWhile_cons, this]
    rw [List.cons_append, scanNum, if_pos hd, ← List.cons_append]
    congr 1
    simp only [numHere, htw, hdw]
    split
    · rename_i h1 h2 h3
      rw [if_neg (hrest2 h2 h3 rfl)]
    · rfl

theorem scanNum_decimal_run (ds fs rest : List Char) (hdsne : ds ≠ [])
    (hds : ∀ c ∈ ds, c.isDigit = true) (hfsne : fs ≠ [])
    (hfs : ∀ c ∈ fs, c.isDigit = true)
    (hrest : ∀ c0, rest.head? = some c0 → ¬ c0.isDigit = true) :
    scanNum (ds ++ '.' :: (fs ++ rest)) =
      some ((digitsToNat ds : ℚ) + (digitsToNat fs : ℚ) / (10 : ℚ) ^ fs.length) := by
  have hfsrest_tw : (fs ++ rest).takeWhile Char.isDigit = fs := by
    rw [takeWhile_append_all Char.isDigit fs rest hfs]
    have hr : rest.takeWhile Char.isDigit = [] := by
      match rest with
      | [] => rfl
      | c0 :: tl => simp [List.takeWhile_cons, hrest c0 rfl]
    rw [hr, List.append_nil]
  match ds, hdsne with
  | d :: ds2, _ =>
    have hd : d.isDigit = true := hds d (by simp)
    have htw : (d :: ds2 ++ '.' :: (fs ++ rest)).takeWhile Char.isDigit = d :: ds2 := by
      rw [takeWhile_append_all Char.isDigit (d :: ds2) _ hds]
      simp [List.takeWhile_cons]
    have hdw : (d :: ds2 ++ '.' :: (fs ++ rest)).dropWhile Char.isDigit =
        '.' :: (fs ++ rest) := by
      rw [dropWhile_append_all Char.isDigit (d :: ds2) _ hds]
      simp [List.dropWhile_cons]
    rw [List.cons_append, scanNum, if_pos hd, ← List.cons_append]
    congr 1
    match fs, hfsne with
    | f1 :: fs2, _ =>
      have hf1 : f1.isDigit = true := hfs f1 (by simp)
      simp only [List.cons_append] at htw hdw hfsrest_tw
      simp only [numHere, List.cons_append, htw, hdw]
      rw [if_pos hf1]
      simp only [List.drop_succ_cons, List.drop_zero, hfsrest_tw]

/-- C4: the `(mileage_text, y_value)` derivation splits the stem on the first
`-` (left part stripped, right part `int`-parsed with fallback 0, or the
whole stripped stem with `y = 0` when no `-` occurs); `mileage_value` is the
value of the first run of digits optionally followed by a decimal point and
more digits — a bare digit run not followed by `.`+digit parses as its
integer value, and a run followed by `.` and a fractional digit run parses
as integer + fraction/10^len — and is `+∞` (`⊤`) exactly when the text has
no digit; every derivation is total, so no file name raises (the concrete
malformed stems below all degrade to the 0 / `⊤` sentinels, and
`"k12.5m3"` parses to `12.5`). -/
theorem c4_filename_derivation (a b : List Char) (ha : '-' ∉ a) :
    (stemInfo ⟨a ++ '-' :: b⟩ = (pyStrip ⟨a⟩, (parseIntPy (pyStrip ⟨b⟩)).getD 0))
    ∧ (∀ s : List Char, '-' ∉ s → stemInfo ⟨s⟩ = (pyStrip ⟨s⟩, 0))
    ∧ (∀ text : String, parse_mileage text = ⊤ ↔ ∀ c ∈ text.data, ¬ c.isDigit = true)
    ∧ (∀ ds rest : List Char, ds ≠ [] → (∀ c ∈ ds, c.isDigit = true) →
        (∀ c0, rest.head? = some c0 → ¬ c0.isDigit = true) →
        (∀ c1 tl, rest = '.' :: c1 :: tl → ¬ c1.isDigit = true) →
        ∀ pre : List Char, (∀ c ∈ pre, ¬ c.isDigit = true) →
          parse_mileage ⟨pre ++ ds ++ rest⟩ = ((digitsToNat ds : ℚ) : WithTop ℚ))
    ∧ (∀ ds fs rest : List Char, ds ≠ [] → (∀ c ∈ ds, c.isDigit = true) →
        fs ≠ [] → (∀ c ∈ fs, c.isDigit = true) →
        (∀ c0, rest.head? = some c0 → ¬ c0.isDigit = true) →
        ∀ pre : List Char, (∀ c ∈ pre, ¬ c.isDigit = true) →
          parse_mileage ⟨pre ++ ds ++ '.' :: (fs ++ rest)⟩ =
            (((digitsToNat ds : ℚ) + (digitsToNat fs : ℚ) / (10 : ℚ) ^ fs.length :
              ℚ) : WithTop ℚ))
    ∧ parse_mileage "k12.5m3" = ((25/2 : ℚ) : WithTop ℚ)
    ∧ stemInfo "100-" = ("100", 0)
    ∧ stemInfo "100-xy" = ("100", 0)
    ∧ stemInfo " 12 - 34 " = ("12", 34)
    ∧ parse_mileage "abc" = ⊤
    ∧ toItem ⟨"@#$%.jpg", true, some (1, 1)⟩ =
        { path := ⟨"@#$%.jpg", true, some (1, 1)⟩, mileage_text := "@#$%",
          mileage_value := ⊤, y_value := 0 } := by
  refine ⟨?_, ?_, ?_, ?_, ?_, ?_, by decide, by decide, by decide, by decide, by decide⟩
  · show (match splitDash (a ++ '-' :: b) with
      | (a2, some b2) => (pyStrip ⟨a2⟩, (parseIntPy (pyStrip ⟨b2⟩)).getD 0)
      | (a2, none) => (pyStrip ⟨a2⟩, 0)) = _
    rw [splitDash_with_dash a b ha]
  · intro s hs
    show (match splitDash s with
      | (a2, some b2) => (pyStrip ⟨a2⟩, (parseIntPy (pyStrip ⟨b2⟩)).getD 0)
      | (a2, none) => (pyStrip ⟨a2⟩, 0)) = _
    rw [splitDash_no_dash s hs]
  · intro text
    unfold parse_mileage
    rcases hsc : scanNum text.data with _ | q
    · simp only [hsc]
      exact ⟨fun _ => (scanNum_eq_none_iff text.data).mp hsc, fun _ => trivial⟩
    · simp only [hsc]
      constructor
      · intro heq
        exact absurd heq (WithTop.coe_ne_top)
      · intro hall
        rw [(scanNum_eq_none_iff text.data).mpr hall] at hsc
        cases hsc
  · intro ds rest hne hds hrest1 hrest2 pre hpre
    show (match scanNum (pre ++ ds ++ rest) with
      | some q => (q : WithTop ℚ)
      | none => ⊤) = _
    rw [List.append_assoc, scanNum_append_nodigit pre (ds ++ rest) hpre,
      scanNum_digit_run ds rest hne hds hrest1 hrest2]
  · intro ds fs rest hdsne hds hfsne hfs hrest pre hpre
    show (match scanNum (pre ++ ds ++ '.' :: (fs ++ rest)) with
      | some q => (q : WithTop ℚ)
      | none => ⊤) = _
    rw [List.append_assoc, scanNum_append_nodigit pre (ds ++ '.' :: (fs ++ rest)) hpre,
      scanNum_decimal_run ds fs rest hdsne hds hfsne hfs hrest]
  · have h2 : numHere ['1', '2', '.', '5', 'm', '3'] = (25/2 : ℚ) := by
      have h3 : numHere ['1', '2', '.', '5', 'm', '3'] =
          (digitsToNat ['1', '2'] : ℚ) + (digitsToNat ['5'] : ℚ) / (10 : ℚ) ^ 1 := rfl
      have h4 : digitsToNat ['1', '2'] = 12 := by decide
      have h5 : digitsToNat ['5'] = 5 := by decide
      rw [h3, h4, h5]
      norm_num
    have h1 : parse_mileage "k12.5m3" =
        ((numHere ['1', '2', '.', '5', 'm', '3'] : ℚ) : WithTop ℚ) := rfl
    rw [h1, h2]

theorem c4_filename_derivation_witness :
    stemInfo ⟨['1', '0', '0'] ++ '-' :: ['2']⟩ =
      (pyStrip ⟨['1', '0', '0']⟩, (parseIntPy (pyStrip ⟨['2']⟩)).getD 0) :=
  (c4_filename_derivation ['1', '0', '0'] ['2'] (by decide)).1

/-! ### Lemmas for the canvas claim -/

theorem roundHE_intCast (n : ℤ) : roundHE (n : ℚ) = n := by
  unfold roundHE
  rw [Int.floor_intCast]
  norm_num

theorem roundHE_natCast (n : Nat) : roundHE (n : ℚ) = n := by
  have h := roundHE_intCast (n : ℤ)
  rw [← h]
  norm_num

/-- C5: the canvas has exactly the pixel size
`round(width_cm/2.54*220) × round(height_cm/2.54*220)`; the applied scale
factor is the largest value ≤ 1 whose scaled dimensions fit the box (hence a
source that already fits is pasted at its original size — never upscaled);
each pasted dimension is at least one pixel; each paste offset is the floor
of half the remaining space; the background is white. -/
theorem c5_canvas (w h : Nat) (width_cm height_cm : ℚ) (hw : 1 ≤ w) (hh : 1 ≤ h) :
    (prepare_image_stream w h width_cm height_cm).W = roundHE (width_cm / 2.54 * 220)
    ∧ (prepare_image_stream w h width_cm height_cm).H = roundHE (height_cm / 2.54 * 220)
    ∧ (prepare_image_stream w h width_cm height_cm).background = "white"
    ∧ 1 ≤ (prepare_image_stream w h width_cm height_cm).pw
    ∧ 1 ≤ (prepare_image_stream w h width_cm height_cm).ph
    ∧ (prepare_image_stream w h width_cm height_cm).ox =
        Int.fdiv ((prepare_image_stream w h width_cm height_cm).W -
          (prepare_image_stream w h width_cm height_cm).pw) 2
    ∧ (prepare_image_stream w h width_cm height_cm).oy =
        Int.fdiv ((prepare_image_stream w h width_cm height_cm).H -
          (prepare_image_stream w h width_cm height_cm).ph) 2
    ∧ scaleFactor w h (prepare_image_stream w h width_cm height_cm).W
        (prepare_image_stream w h width_cm height_cm).H ≤ 1
    ∧ scaleFactor w h (prepare_image_stream w h width_cm height_cm).W
        (prepare_image_stream w h width_cm height_cm).H * w ≤
        ((prepare_image_stream w h width_cm height_cm).W : ℚ)
    ∧ scaleFactor w h (prepare_image_stream w h width_cm height_cm).W
        (prepare_image_stream w h width_cm height_cm).H * h ≤
        ((prepare_image_stream w h width_cm height_cm).H : ℚ)
    ∧ (∀ s : ℚ, s ≤ 1 →
        s * w ≤ ((prepare_image_stream w h width_cm height_cm).W : ℚ) →
        s * h ≤ ((prepare_image_stream w h width_cm height_cm).H : ℚ) →
        s ≤ scaleFactor w h (prepare_image_stream w h width_cm height_cm).W
          (prepare_image_stream w h width_cm height_cm).H)
    ∧ ((w : ℤ) ≤ (prepare_image_stream w h width_cm height_cm).W →
        (h : ℤ) ≤ (prepare_image_stream w h width_cm height_cm).H →
        (prepare_image_stream w h width_cm height_cm).pw = w ∧
        (prepare_image_stream w h width_cm height_cm).ph = h) := by
  have hw0 : (0 : ℚ) < (w : ℚ) := by
    have : 0 < w := by omega
    exact_mod_cast this
  have hh0 : (0 : ℚ) < (h : ℚ) := by
    have : 0 < h := by omega
    exact_mod_cast this
  refine ⟨rfl, rfl, rfl, le_max_left 1 _, le_max_left 1 _, rfl, rfl, ?_, ?_, ?_, ?_, ?_⟩
  · exact le_trans (min_le_right _ _) (min_le_right _ _)
  · exact (le_div_iff₀ hw0).mp (min_le_left _ _)
  · exact (le_div_iff₀ hh0).mp
      (le_trans (min_le_right _ _) (min_le_left _ _))
  · intro s hs1 hsw hsh
    exact le_min ((le_div_iff₀ hw0).mpr hsw)
      (le_min ((le_div_iff₀ hh0).mpr hsh) hs1)
  · intro hfitw hfith
    have hWdef : (prepare_image_stream w h width_cm height_cm).W =
        roundHE (width_cm / 2.54 * 220) := rfl
    have hHdef : (prepare_image_stream w h width_cm height_cm).H =
        roundHE (height_cm / 2.54 * 220) := rfl
    rw [hWdef] at hfitw
    rw [hHdef] at hfith
    have hA : (1 : ℚ) ≤ ((roundHE (width_cm / 2.54 * 220) : ℚ)) / w := by
      rw [le_div_iff₀ hw0, one_mul]
      exact_mod_cast hfitw
    have hB : (1 : ℚ) ≤ ((roundHE (height_cm / 2.54 * 220) : ℚ)) / h := by
      rw [le_div_iff₀ hh0, one_mul]
      exact_mod_cast hfith
    have hscale : scaleFactor w h (roundHE (width_cm / 2.54 * 220))
        (roundHE (height_cm / 2.54 * 220)) = 1 := by
      unfold scaleFactor
      rw [min_eq_right hB, min_eq_right hA]
    constructor
    · show max 1 (roundHE ((w : ℚ) * scaleFactor w h (roundHE (width_cm / 2.54 * 220))
        (roundHE (height_cm / 2.54 * 220)))) = (w : ℤ)
      rw [hscale, mul_one, roundHE_natCast]
      exact max_eq_right (by exact_mod_cast hw)
    · show max 1 (roundHE ((h : ℚ) * scaleFactor w h (roundHE (width_cm / 2.54 * 220))
        (roundHE (height_cm / 2.54 * 220)))) = (h : ℤ)
      rw [hscale, mul_one, roundHE_natCast]
      exact max_eq_right (by exact_mod_cast hh)

theorem c5_canvas_witness :
    (prepare_image_stream 1000 500 (76/10) (47/10)).background = "white" :=
  (c5_canvas 1000 500 (76/10) (47/10) (by decide) (by decide)).2.2.1

/-- C8 counterexample: the table is hard-coded to 3 columns
(`document.add_table(rows=0, cols=3)`), so for `per_row = 3` the claimed
column count `2 * per_row - 1 = 5` is wrong. -/
theorem c8_cex :
    (build_document (find_images files3) 3 (76/10) (47/10)).cols = 3 ∧
    ¬ ((build_document (find_images files3) 3 (76/10) (47/10)).cols = 2 * 3 - 1) :=
  ⟨rfl, by decide⟩

/-- C8 amended: the built table always has exactly 3 columns — two image
columns (cells 0 and 2) separated by one gap column — regardless of
`per_row`; the per-row cell widths are `[width_cm, gap, width_cm]` with
`gap = max(0.1, 11.70 - 2.76 - width_cm)`: the width that remains after one
margin and one image column, floored at the positive minimum 0.1 cm so the
gap column stays valid when the image width nearly fills the page. -/
theorem c8_table (images : List ImageItem) (per_row : Nat) (wcm hcm : ℚ) :
    (build_document images per_row wcm hcm).cols = 3
    ∧ (build_document images per_row wcm hcm).columnWidths =
        [wcm, (build_document images per_row wcm hcm).gapWidth, wcm]
    ∧ (build_document images per_row wcm hcm).gapWidth =
        max 0.1 (11.70 - 2.76 - wcm)
    ∧ (1/10 : ℚ) ≤ (build_document images per_row wcm hcm).gapWidth
    ∧ (wcm ≤ 8.84 → (build_document images per_row wcm hcm).gapWidth =
        11.70 - 2.76 - wcm) := by
  refine ⟨rfl, rfl, rfl, ?_, ?_⟩
  · show (1/10 : ℚ) ≤ max 0.1 (11.70 - 2.76 - wcm)
    have h01 : (0.1 : ℚ) = 1/10 := by norm_num
    rw [← h01]
    exact le_max_left _ _
  · intro hwcm
    show max 0.1 (11.70 - 2.76 - wcm) = 11.70 - 2.76 - wcm
    apply max_eq_right
    norm_num
    linarith

theorem c8_table_witness :
    (build_document [] 2 (76/10) (47/10)).gapWidth = 11.70 - 2.76 - 76/10 :=
  (c8_table [] 2 (76/10) (47/10)).2.2.2.2 (by norm_num)

/-- C9 counterexample: two runs over the same *set* of files — `tieA` and
`tieB` share the sort key `("100", 2, 100)` but have different names and
pixel contents — embed the images in different orders depending on the
directory iteration order (the stable sort keeps tied items in encounter
order), so document content is not a function of the input set alone. -/
theorem c9_cex :
    List.Perm [tieA, tieB] [tieB, tieA] ∧
    embedNames (build_document (find_images [tieA, tieB]) 2 (76/10) (47/10)).trace ≠
      embedNames (build_document (find_images [tieB, tieA]) 2 (76/10) (47/10)).trace := by
  constructor
  · decide
  · decide

/-- C9 amended: for two runs over listings that are permutations of each
other (same set of files, all decodable), the caption texts and the table
dimensions (row count, column count, column widths) of the two documents are
identical; only the assignment of tied-key images to positions may differ. -/
theorem c9_deterministic (l1 l2 : List SrcFile) (per_row : Nat) (wcm hcm : ℚ)
    (hperm : List.Perm l1 l2) (h1 : ∀ it ∈ find_images l1, decodeOk it = true) :
    capTexts (build_document (find_images l1) per_row wcm hcm).trace =
      capTexts (build_document (find_images l2) per_row wcm hcm).trace
    ∧ (build_document (find_images l1) per_row wcm hcm).rows.length =
      (build_document (find_images l2) per_row wcm hcm).rows.length
    ∧ (build_document (find_images l1) per_row wcm hcm).cols =
      (build_document (find_images l2) per_row wcm hcm).cols
    ∧ (build_document (find_images l1) per_row wcm hcm).columnWidths =
      (build_document (find_images l2) per_row wcm hcm).columnWidths := by
  have h2 : ∀ it ∈ find_images l2, decodeOk it = true := fun it hit =>
    h1 it ((find_images_perm hperm).mem_iff.mpr hit)
  have hb1 := build_document_spec (find_images l1) per_row wcm hcm h1
  have hb2 := build_document_spec (find_images l2) per_row wcm hcm h2
  have hmts := find_images_mts_eq_of_perm hperm
  refine ⟨?_, ?_, ?_, ?_⟩
  · rw [hb1, hb2]
    show capTexts (traceSpec (find_images l1).length (embeddedSeq (find_images l1) per_row) 1) =
      capTexts (traceSpec (find_images l2).length (embeddedSeq (find_images l2) per_row) 1)
    rw [capTexts_traceSpec, capTexts_traceSpec, labelsSpec_eq_ofMts, labelsSpec_eq_ofMts,
      ← embeddedSeq_map, ← embeddedSeq_map, hmts]
  · rw [hb1, hb2]
    show (rowsSpec (chunked (find_images l1) per_row) 1).length =
      (rowsSpec (chunked (find_images l2) per_row) 1).length
    rw [rowsSpec_length, rowsSpec_length]
    have hc1 : (chunked (find_images l1) per_row).length =
        (chunked ((find_images l1).map (fun it => it.mileage_text)) per_row).length := by
      rw [chunked_map, List.length_map]
    have hc2 : (chunked (find_images l2) per_row).length =
        (chunked ((find_images l2).map (fun it => it.mileage_text)) per_row).length := by
      rw [chunked_map, List.length_map]
    rw [hc1, hc2, hmts]
  · rw [hb1, hb2]
  · rw [hb1, hb2]

theorem c9_deterministic_witness :
    capTexts (build_document (find_images files2) 2 (76/10) (47/10)).trace =
      capTexts (build_document (find_images files2) 2 (76/10) (47/10)).trace :=
  (c9_deterministic files2 files2 2 (76/10) (47/10) (List.Perm.refl files2)
    (by decide)).1

end JpgInsertWord
